import Mathlib

/-!
Verification development for the appsmith dependency-map utilities
(`src/app/client/src/workers/DependencyMap/utils.ts`), the NumberSlider
numeric helpers (`src/app/client/src/widgets/NumberSliderWidget/utils.ts`),
and the incremental evaluator described by the specification.

JavaScript values are embedded shallowly: strings as `String`, arrays as
`List`, the `Record<string, true>` map `allPaths` as the `List String` of its
keys, JS `Set` insertion order as a duplicate-free list built by appending,
and slider numbers as exact rationals `ℚ`.
-/

namespace Appsmith

/-! ### Characters used by the path parser -/

def singleQuoteChar : Char := Char.ofNat 39

def doubleQuoteChar : Char := Char.ofNat 34

def backslashChar : Char := Char.ofNat 92

/-! ### lodash `toPath`

`toPath` is the lodash library function imported by
`workers/DependencyMap/utils.ts`.  It splits a dotted/bracket identifier such
as `Api1.data[0]["x"]` into its path segments `["Api1", "data", "0", "x"]`.
The embedding below reproduces its tokenisation: dot-separated plain
segments, bracketed segments, and quoted bracketed segments with backslash
escapes; a leading dot contributes a leading empty segment. -/

/-- Reads a quoted bracket segment up to the closing quote `q`, collapsing
backslash escapes; returns the segment and the remaining characters. -/
def readQuoted (q : Char) : Nat → List Char → List Char × List Char
  | 0, cs => ([], cs)
  | _, [] => ([], [])
  | fuel + 1, c :: cs =>
    if c = q then ([], cs)
    else if c = backslashChar then
      match cs with
      | [] => ([], [])
      | d :: cs' =>
        let (seg, rest) := readQuoted q fuel cs'
        (d :: seg, rest)
    else
      let (seg, rest) := readQuoted q fuel cs
      (c :: seg, rest)

/-- One segment per step: a `.` separator, a bracketed segment (quoted or
not), or a maximal run of plain characters.  `fuel` bounds the recursion; the
callers pass the length of the character list plus one, which is enough since
every step consumes at least one character. -/
def toPathGo : Nat → List Char → List String
  | 0, _ => []
  | _, [] => []
  | fuel + 1, c :: cs =>
    if c = '.' then toPathGo fuel cs
    else if c = '[' then
      match cs with
      | [] => []
      | q :: cs' =>
        if q = doubleQuoteChar ∨ q = singleQuoteChar then
          let (seg, rest0) := readQuoted q (cs'.length + 1) cs'
          let rest := if rest0.head? = some ']' then rest0.drop 1 else rest0
          seg.asString :: toPathGo fuel rest
        else
          let seg := cs.takeWhile (fun d => d ≠ ']')
          let rest := (cs.dropWhile (fun d => d ≠ ']')).drop 1
          seg.asString :: toPathGo fuel rest
    else
      let seg := (c :: cs).takeWhile (fun d => ¬(d = '.' ∨ d = '['))
      let rest := (c :: cs).dropWhile (fun d => ¬(d = '.' ∨ d = '['))
      seg.asString :: toPathGo fuel rest

/-- lodash `toPath` on a string. -/
def toPath (s : String) : List String :=
  let cs := s.toList
  (if cs.head? = some '.' then [""] else []) ++ toPathGo (cs.length + 1) cs

/-! ### `convertPathToString` -/

/-- Whether a segment is an integer index (all digits, nonempty), in which
case `convertPathToString` renders it in bracket notation. -/
def isIntSegment (s : String) : Bool :=
  !s.isEmpty && s.toList.all Char.isDigit

/-- Modelled from the spec: `convertPathToString` from
`workers/evaluationUtils` (imported by the dependency-map utils but not part
of the provided sources) renders a segment path back into the dotted/bracket
identifier syntax the spec describes: integer segments are bracketed, other
segments are joined with dots. -/
def convertPathToString (arrPath : List String) : String :=
  arrPath.foldl
    (fun acc segment =>
      if isIntSegment segment then acc ++ "[" ++ segment ++ "]"
      else if acc.length ≠ 0 then acc ++ "." ++ segment
      else acc ++ segment)
    ""

/-! ### `extractIdentifiersFromCode` and the evaluation version -/

/-- Characters that may occur inside a dotted/bracket identifier token. -/
def isIdentChar (c : Char) : Bool :=
  c.isAlphanum || c = '_' || c = '$' || c = '.' || c = '[' || c = ']' ||
    c = doubleQuoteChar || c = singleQuoteChar

/-- Whether a token begins like an identifier (letter, underscore or `$`). -/
def startsIdent (s : String) : Bool :=
  match s.toList with
  | [] => false
  | c :: _ => c.isAlpha || c = '_' || c = '$'

/-- Maximal runs of identifier characters occurring in a character list. -/
def tokensGo : Nat → List Char → List String
  | 0, _ => []
  | _, [] => []
  | fuel + 1, c :: cs =>
    if isIdentChar c then
      let tok := (c :: cs).takeWhile isIdentChar
      let rest := (c :: cs).dropWhile isIdentChar
      tok.asString :: tokensGo fuel rest
    else tokensGo fuel cs

/-- Modelled from the spec: `extractIdentifiersFromCode` from the shared AST
package (imported by the dependency-map utils but not part of the provided
sources) parses a binding script and returns the identifier references
occurring in it.  Modelled as the dotted/bracket identifier tokens of the
script that begin like an identifier. -/
def extractIdentifiersFromCode (script : String) (_evaluationVersion : Nat) :
    List String :=
  (tokensGo (script.toList.length + 1) script.toList).filter startsIdent

/-- Models the worker-global `self?.evaluationVersion` read by
`extractInfoFromBinding`; its value is irrelevant to the results proved
here. -/
def evaluationVersion : Nat := 2

/-! ### `extractInfoFromIdentifiers` and `extractInfoFromBinding` -/

/-- The result record `{ references, unreferencedIdentifiers }`. -/
structure ExtractResult where
  references : List String
  unreferencedIdentifiers : List String
  deriving Repr, DecidableEq

/-- `references.add r` on the JS `Set`: append `r` unless already present
(JS sets keep first-insertion order, so `Array.from` yields this list). -/
def addToReferences (refs : List String) (r : String) : List String :=
  if r ∈ refs then refs else refs ++ [r]

/-- The `while (subpaths.length > 1)` loop of `extractInfoFromIdentifiers`:
convert the current segment list to a string, return it if it is a key of
`allPaths`, otherwise pop the last segment (`subpaths.pop()`) and repeat.
`fuel` bounds the iteration; callers pass `subpaths.length`, which is enough
since every iteration shortens the list by one and the loop stops at length
one. -/
def searchSubpaths (allPaths : List String) : Nat → List String → Option String
  | 0, _ => none
  | fuel + 1, subpaths =>
    if subpaths.length > 1 then
      let current := convertPathToString subpaths
      if current ∈ allPaths then some current
      else searchSubpaths allPaths fuel subpaths.dropLast
    else none

/-- The per-identifier body of `extractInfoFromIdentifiers.forEach`: the
reference derived from `identifier`, if any — the identifier itself when it
is a key of `allPaths`, otherwise the result of the subpath loop on
`toPath identifier`. -/
def classifyIdentifier (allPaths : List String) (identifier : String) :
    Option String :=
  if identifier ∈ allPaths then some identifier
  else
    let subpaths := toPath identifier
    searchSubpaths allPaths subpaths.length subpaths

/-- One `forEach` step: add the derived reference to the set, or push the
identifier onto `unreferencedIdentifiers`. -/
def extractStep (allPaths : List String) (acc : ExtractResult)
    (identifier : String) : ExtractResult :=
  match classifyIdentifier allPaths identifier with
  | some r => { acc with references := addToReferences acc.references r }
  | none =>
    { acc with
      unreferencedIdentifiers := acc.unreferencedIdentifiers ++ [identifier] }

/-- `extractInfoFromIdentifiers` from `workers/DependencyMap/utils.ts`. -/
def extractInfoFromIdentifiers (identifiers : List String)
    (allPaths : List String) : ExtractResult :=
  identifiers.foldl (extractStep allPaths) ⟨[], []⟩

/-- `extractInfoFromBinding` from `workers/DependencyMap/utils.ts`. -/
def extractInfoFromBinding (script : String) (allPaths : List String) :
    ExtractResult :=
  let identifiers := extractIdentifiersFromCode script evaluationVersion
  extractInfoFromIdentifiers identifiers allPaths

/-! ### NumberSlider numeric helpers, over exact rationals -/

/-- `getPosition` from `widgets/NumberSliderWidget/utils.ts`:
`((value - min) / (max - min)) * 100` clamped by
`Math.min(Math.max(position, 0), 100)`. -/
def getPosition (value minV maxV : ℚ) : ℚ :=
  let position := (value - minV) / (maxV - minV) * 100
  min (max position 0) 100

/-- JS `Math.round`: round half toward positive infinity. -/
def jsRound (x : ℚ) : ℚ := (⌊x + 1 / 2⌋ : ℤ)

/-- JS `Number(x.toFixed(f))`: round to `f` fractional digits, ties toward
positive infinity. -/
def jsToFixed (fractionDigits : ℕ) (x : ℚ) : ℚ :=
  ((⌊x * 10 ^ fractionDigits + 1 / 2⌋ : ℤ) : ℚ) / 10 ^ fractionDigits

/-- The `left` computation of `getChangeValue`: `!containerWidth` (absent or
zero) yields `value` itself, otherwise
`Math.min(Math.max(value, 0), containerWidth) / containerWidth`. -/
def sliderLeft (value : ℚ) (containerWidth : Option ℚ) : ℚ :=
  match containerWidth with
  | none => value
  | some c => if c = 0 then value else min (max value 0) c / c

/-- `getChangeValue` from `widgets/NumberSliderWidget/utils.ts`. -/
def getChangeValue (value minV maxV step : ℚ) (precision : Option ℕ)
    (containerWidth : Option ℚ) : ℚ :=
  let left := sliderLeft value containerWidth
  let dx := left * (maxV - minV)
  let nextValue := (if dx ≠ 0 then jsRound (dx / step) * step else 0) + minV
  match precision with
  | some p => jsToFixed p nextValue
  | none => nextValue

/-! ### The incremental evaluator of the spec -/

/-- Modelled from the spec: the `DataTreeEvaluator` (referenced by the
dependency-map utils but not part of the provided sources) "topologically
orders and incrementally re-evaluates only the affected nodes when any
entity changes".  Nodes stand for data-tree paths; `order` is the
topological evaluation order, `deps n` the nodes that `n` reads, and
`compute n` the evaluation of node `n` against the current tree. -/
structure EvaluatorModel where
  order : List Nat
  deps : Nat → List Nat
  compute : Nat → (Nat → Int) → Int

/-- Point update of a tree of evaluated values. -/
def updateAt (values : Nat → Int) (n : Nat) (v : Int) : Nat → Int :=
  fun m => if m = n then v else values m

/-- `n` depends, directly or transitively, on the changed entity (the
changed entity itself depends on it). -/
inductive DependsOn (deps : Nat → List Nat) (changed : Nat) : Nat → Prop
  | base : DependsOn deps changed changed
  | step {n d : Nat} : d ∈ deps n → DependsOn deps changed d →
      DependsOn deps changed n

/-- Walk the topological order, re-evaluating a node exactly when it is the
changed entity or reads an already re-evaluated (dirty) node. -/
def reevalGo (M : EvaluatorModel) (changed : Nat) :
    List Nat → (Nat → Int) → List Nat → (Nat → Int)
  | [], values, _ => values
  | n :: rest, values, dirty =>
    if n = changed ∨ ∃ d ∈ M.deps n, d ∈ dirty then
      reevalGo M changed rest (updateAt values n (M.compute n values))
        (n :: dirty)
    else reevalGo M changed rest values dirty

/-- Modelled from the spec: incremental re-evaluation after `changed`
changes, starting from the previously evaluated tree `old`. -/
def reevaluate (M : EvaluatorModel) (changed : Nat) (old : Nat → Int) :
    Nat → Int :=
  reevalGo M changed M.order old [changed]

/-! ### Lemmas about the subpath search -/

theorem take_dropLast_eq (l : List String) (m : Nat) (hm : m ≤ l.length - 1) :
    l.dropLast.take m = l.take m := by
  rw [List.dropLast_eq_take, List.take_take, Nat.min_eq_left hm]

theorem searchSubpaths_some_shape (allPaths : List String) :
    ∀ (fuel : Nat) (l : List String) (r : String),
      searchSubpaths allPaths fuel l = some r →
      ∃ n, 2 ≤ n ∧ n ≤ l.length ∧ r = convertPathToString (l.take n) ∧
        r ∈ allPaths := by
  intro fuel
  induction fuel with
  | zero => intro l r h; simp [searchSubpaths] at h
  | succ fuel ih =>
    intro l r h
    simp only [searchSubpaths] at h
    by_cases h1 : l.length > 1
    · rw [if_pos h1] at h
      by_cases h2 : convertPathToString l ∈ allPaths
      · rw [if_pos h2] at h
        injection h with h
        subst h
        exact ⟨l.length, by omega, le_rfl, by rw [List.take_length], h2⟩
      · rw [if_neg h2] at h
        obtain ⟨n, hn2, hnle, hr, hmem⟩ := ih l.dropLast r h
        rw [List.length_dropLast] at hnle
        refine ⟨n, hn2, by omega, ?_, hmem⟩
        rw [hr, take_dropLast_eq l n hnle]
    · rw [if_neg h1] at h
      cases h

theorem searchSubpaths_eq_longest (allPaths : List String) :
    ∀ (fuel : Nat) (l : List String) (N : Nat),
      l.length ≤ fuel → 2 ≤ N → N ≤ l.length →
      convertPathToString (l.take N) ∈ allPaths →
      (∀ m, N < m → m ≤ l.length → convertPathToString (l.take m) ∉ allPaths) →
      searchSubpaths allPaths fuel l =
        some (convertPathToString (l.take N)) := by
  intro fuel
  induction fuel with
  | zero => intro l N hfuel h2 hN _ _; omega
  | succ fuel ih =>
    intro l N hfuel h2 hN hmem hmax
    have h1 : l.length > 1 := by omega
    simp only [searchSubpaths, if_pos h1]
    by_cases hful : N = l.length
    · subst hful
      rw [List.take_length] at hmem ⊢
      rw [if_pos hmem]
    · have hNlt : N < l.length := lt_of_le_of_ne hN hful
      have hnotmem : convertPathToString l ∉ allPaths := by
        have := hmax l.length hNlt le_rfl
        rwa [List.take_length] at this
      rw [if_neg hnotmem]
      rw [← take_dropLast_eq l N (by omega)]
      apply ih l.dropLast N
      · rw [List.length_dropLast]; omega
      · exact h2
      · rw [List.length_dropLast]; omega
      · rw [take_dropLast_eq l N (by omega)]; exact hmem
      · intro m hm1 hm2
        rw [List.length_dropLast] at hm2
        rw [take_dropLast_eq l m hm2]
        exact hmax m hm1 (by omega)

theorem searchSubpaths_eq_none (allPaths : List String) :
    ∀ (fuel : Nat) (l : List String),
      l.length ≤ fuel →
      (∀ m, 2 ≤ m → m ≤ l.length → convertPathToString (l.take m) ∉ allPaths) →
      searchSubpaths allPaths fuel l = none := by
  intro fuel
  induction fuel with
  | zero => intro l _ _; simp [searchSubpaths]
  | succ fuel ih =>
    intro l hfuel hnone
    by_cases h1 : l.length > 1
    · simp only [searchSubpaths, if_pos h1]
      have hnotmem : convertPathToString l ∉ allPaths := by
        have := hnone l.length (by omega) le_rfl
        rwa [List.take_length] at this
      rw [if_neg hnotmem]
      apply ih l.dropLast
      · rw [List.length_dropLast]; omega
      · intro m hm1 hm2
        rw [List.length_dropLast] at hm2
        rw [take_dropLast_eq l m hm2]
        exact hnone m hm1 (by omega)
    · simp only [searchSubpaths, if_neg h1]

/-! ### Lemmas about `classifyIdentifier` -/

theorem classifyIdentifier_some_mem (allPaths : List String)
    (identifier r : String)
    (h : classifyIdentifier allPaths identifier = some r) : r ∈ allPaths := by
  unfold classifyIdentifier at h
  by_cases hid : identifier ∈ allPaths
  · rw [if_pos hid] at h
    injection h with h
    subst h
    exact hid
  · rw [if_neg hid] at h
    obtain ⟨n, _, _, _, hmem⟩ := searchSubpaths_some_shape allPaths _ _ _ h
    exact hmem

theorem classifyIdentifier_some_shape (allPaths : List String)
    (identifier r : String)
    (h : classifyIdentifier allPaths identifier = some r) :
    (r = identifier ∧ identifier ∈ allPaths) ∨
      ∃ n, 2 ≤ n ∧ n ≤ (toPath identifier).length ∧
        r = convertPathToString ((toPath identifier).take n) := by
  unfold classifyIdentifier at h
  by_cases hid : identifier ∈ allPaths
  · rw [if_pos hid] at h
    injection h with h
    exact Or.inl ⟨h.symm, hid⟩
  · rw [if_neg hid] at h
    obtain ⟨n, hn2, hnle, hr, _⟩ := searchSubpaths_some_shape allPaths _ _ _ h
    exact Or.inr ⟨n, hn2, hnle, hr⟩

/-! ### Lemmas about the identifier fold -/

theorem mem_addToReferences (refs : List String) (r x : String) :
    x ∈ addToReferences refs r ↔ x ∈ refs ∨ x = r := by
  unfold addToReferences
  by_cases h : r ∈ refs
  · rw [if_pos h]
    constructor
    · exact Or.inl
    · rintro (hx | rfl)
      · exact hx
      · exact h
  · rw [if_neg h]
    simp

theorem nodup_addToReferences (refs : List String) (r : String)
    (h : refs.Nodup) : (addToReferences refs r).Nodup := by
  unfold addToReferences
  by_cases hmem : r ∈ refs
  · rwa [if_pos hmem]
  · rw [if_neg hmem]
    simp only [List.nodup_append, List.nodup_singleton, true_and]
    refine ⟨h, fun a ha har => hmem ?_⟩
    rw [List.mem_singleton] at har
    rwa [har] at ha

theorem references_foldl_mem (allPaths : List String) :
    ∀ (identifiers : List String) (acc : ExtractResult) (x : String),
      x ∈ (identifiers.foldl (extractStep allPaths) acc).references ↔
        x ∈ acc.references ∨
          ∃ id ∈ identifiers, classifyIdentifier allPaths id = some x := by
  intro identifiers
  induction identifiers with
  | nil => simp
  | cons id ids ih =>
    intro acc x
    rw [List.foldl_cons, ih]
    cases h : classifyIdentifier allPaths id with
    | none =>
      simp only [extractStep, h, List.mem_cons]
      constructor
      · rintro (hx | ⟨i, hi, hc⟩)
        · exact Or.inl hx
        · exact Or.inr ⟨i, Or.inr hi, hc⟩
      · rintro (hx | ⟨i, rfl | hi, hc⟩)
        · exact Or.inl hx
        · rw [h] at hc; cases hc
        · exact Or.inr ⟨i, hi, hc⟩
    | some r =>
      simp only [extractStep, h, List.mem_cons, mem_addToReferences]
      constructor
      · rintro ((hx | rfl) | ⟨i, hi, hc⟩)
        · exact Or.inl hx
        · exact Or.inr ⟨id, Or.inl rfl, h⟩
        · exact Or.inr ⟨i, Or.inr hi, hc⟩
      · rintro (hx | ⟨i, rfl | hi, hc⟩)
        · exact Or.inl (Or.inl hx)
        · rw [h] at hc
          injection hc with hc
          exact Or.inl (Or.inr hc.symm)
        · exact Or.inr ⟨i, hi, hc⟩

theorem unreferenced_foldl (allPaths : List String) :
    ∀ (identifiers : List String) (acc : ExtractResult),
      (identifiers.foldl (extractStep allPaths) acc).unreferencedIdentifiers =
        acc.unreferencedIdentifiers ++
          identifiers.filter
            (fun id => (classifyIdentifier allPaths id).isNone) := by
  intro identifiers
  induction identifiers with
  | nil => simp
  | cons id ids ih =>
    intro acc
    rw [List.foldl_cons, ih]
    cases h : classifyIdentifier allPaths id with
    | none => simp [extractStep, h, List.filter_cons]
    | some r => simp [extractStep, h, List.filter_cons]

theorem references_foldl_nodup (allPaths : List String) :
    ∀ (identifiers : List String) (acc : ExtractResult),
      acc.references.Nodup →
      (identifiers.foldl (extractStep allPaths) acc).references.Nodup := by
  intro identifiers
  induction identifiers with
  | nil => intro acc h; simpa using h
  | cons id ids ih =>
    intro acc h
    rw [List.foldl_cons]
    apply ih
    cases hc : classifyIdentifier allPaths id with
    | none => simpa [extractStep, hc] using h
    | some r =>
      simpa [extractStep, hc] using nodup_addToReferences acc.references r h

/-- Membership in the references of `extractInfoFromIdentifiers`. -/
theorem mem_references_extract (identifiers allPaths : List String)
    (x : String) :
    x ∈ (extractInfoFromIdentifiers identifiers allPaths).references ↔
      ∃ id ∈ identifiers, classifyIdentifier allPaths id = some x := by
  unfold extractInfoFromIdentifiers
  rw [references_foldl_mem]
  simp

/-- The unreferenced identifiers of `extractInfoFromIdentifiers` are exactly
the input identifiers from which no reference is derived, in order. -/
theorem unreferenced_extract (identifiers allPaths : List String) :
    (extractInfoFromIdentifiers identifiers allPaths).unreferencedIdentifiers =
      identifiers.filter
        (fun id => (classifyIdentifier allPaths id).isNone) := by
  unfold extractInfoFromIdentifiers
  rw [unreferenced_foldl]
  simp

/-! ### Lemmas about the incremental evaluator model -/

/-- Nodes already marked dirty all depend on the changed entity, and the
walk never touches the value of a node that does not. -/
theorem reevalGo_frame (M : EvaluatorModel) (changed n : Nat)
    (hn : ¬ DependsOn M.deps changed n) :
    ∀ (order : List Nat) (values : Nat → Int) (dirty : List Nat),
      (∀ d ∈ dirty, DependsOn M.deps changed d) →
      reevalGo M changed order values dirty n = values n := by
  intro order
  induction order with
  | nil => intro values dirty _; rfl
  | cons m rest ih =>
    intro values dirty hdirty
    by_cases hcond : m = changed ∨ ∃ d ∈ M.deps m, d ∈ dirty
    · have hm : DependsOn M.deps changed m := by
        rcases hcond with rfl | ⟨d, hd, hdin⟩
        · exact DependsOn.base
        · exact DependsOn.step hd (hdirty d hdin)
      simp only [reevalGo, if_pos hcond]
      rw [ih]
      · unfold updateAt
        rw [if_neg]
        intro he
        rw [he] at hn
        exact hn hm
      · intro d hd
        rcases List.mem_cons.mp hd with rfl | hd'
        · exact hm
        · exact hdirty d hd'
    · simp only [reevalGo, if_neg hcond]
      exact ih values dirty hdirty

/-- `extractInfoFromBinding` unfolded to the composition it is defined as. -/
theorem extractInfoFromBinding_def (script : String) (allPaths : List String) :
    extractInfoFromBinding script allPaths =
      extractInfoFromIdentifiers
        (extractIdentifiersFromCode script evaluationVersion) allPaths := rfl

/-! ### The claims -/

/-- C1: for every array of identifiers and every allPaths map, every element
of the references array returned by `extractInfoFromIdentifiers` is a key of
`allPaths`, and the references array contains no duplicate entries; the same
holds for the references returned by `extractInfoFromBinding`. -/
theorem references_are_keys_and_nodup (identifiers allPaths : List String)
    (script : String) (x : String) :
    ((x ∈ (extractInfoFromIdentifiers identifiers allPaths).references →
        x ∈ allPaths) ∧
      (extractInfoFromIdentifiers identifiers allPaths).references.Nodup) ∧
    ((x ∈ (extractInfoFromBinding script allPaths).references →
        x ∈ allPaths) ∧
      (extractInfoFromBinding script allPaths).references.Nodup) := by
  have hmain : ∀ ids : List String,
      (x ∈ (extractInfoFromIdentifiers ids allPaths).references →
          x ∈ allPaths) ∧
        (extractInfoFromIdentifiers ids allPaths).references.Nodup := by
    intro ids
    constructor
    · intro hx
      rw [mem_references_extract] at hx
      obtain ⟨id, _, hc⟩ := hx
      exact classifyIdentifier_some_mem allPaths id x hc
    · unfold extractInfoFromIdentifiers
      apply references_foldl_nodup
      exact List.nodup_nil
  rw [extractInfoFromBinding_def]
  exact ⟨hmain identifiers, hmain _⟩

/-- Witness for C1: the hypothesis of its first conjunct is satisfiable at a
concrete reference. -/
theorem references_are_keys_and_nodup_witness :
    "Api1.name" ∈ ["Api1.name"] ∧
    (extractInfoFromIdentifiers ["Api1.name"] ["Api1.name"]).references.Nodup :=
  ⟨(references_are_keys_and_nodup ["Api1.name"] ["Api1.name"] ""
      "Api1.name").1.1 (by decide),
   (references_are_keys_and_nodup ["Api1.name"] ["Api1.name"] ""
      "Api1.name").1.2⟩

/-- C2: `extractInfoFromIdentifiers` classifies each input identifier
exhaustively: for every identifier of the input, either a reference derived
from it — the identifier itself when it is a key of `allPaths`, or a
subpath of its `toPath` segment path converted to string form — appears in
the returned references, or the identifier appears verbatim in the returned
`unreferencedIdentifiers`; never neither. -/
theorem extract_classifies_exhaustively (identifiers allPaths : List String)
    (identifier : String) (hmem : identifier ∈ identifiers) :
    (∃ r, ((r = identifier ∧ identifier ∈ allPaths) ∨
        ∃ n, 2 ≤ n ∧ n ≤ (toPath identifier).length ∧
          r = convertPathToString ((toPath identifier).take n)) ∧
      r ∈ (extractInfoFromIdentifiers identifiers allPaths).references) ∨
    identifier ∈
      (extractInfoFromIdentifiers identifiers
        allPaths).unreferencedIdentifiers := by
  cases h : classifyIdentifier allPaths identifier with
  | some r =>
    left
    refine ⟨r, ?_, ?_⟩
    · rcases classifyIdentifier_some_shape allPaths identifier r h with
        ⟨hr, hid⟩ | ⟨n, hn2, hnle, hr⟩
      · exact Or.inl ⟨hr, hid⟩
      · exact Or.inr ⟨n, hn2, hnle, hr⟩
    · rw [mem_references_extract]
      exact ⟨identifier, hmem, h⟩
  | none =>
    right
    rw [unreferenced_extract, List.mem_filter]
    exact ⟨hmem, by simp [h]⟩

/-- Witness for C2: a concrete identifier that is classified (here: as
unreferenced, since nothing in `allPaths` matches). -/
theorem extract_classifies_exhaustively_witness :
    (∃ r, ((r = "unknownEntity.name" ∧
        "unknownEntity.name" ∈ ["Api1.name"]) ∨
        ∃ n, 2 ≤ n ∧ n ≤ (toPath "unknownEntity.name").length ∧
          r = convertPathToString ((toPath "unknownEntity.name").take n)) ∧
      r ∈ (extractInfoFromIdentifiers ["unknownEntity.name"]
        ["Api1.name"]).references) ∨
    "unknownEntity.name" ∈
      (extractInfoFromIdentifiers ["unknownEntity.name"]
        ["Api1.name"]).unreferencedIdentifiers :=
  extract_classifies_exhaustively ["unknownEntity.name"] ["Api1.name"]
    "unknownEntity.name" (by decide)

/-- C3: for every identifier that is not itself a key of `allPaths` but whose
`toPath` segment path has a subpath of at least two segments whose string
form is a key of `allPaths`, `extractInfoFromIdentifiers` derives from it
exactly the longest such subpath (in string form), adds it to references, and
does not add the identifier to `unreferencedIdentifiers`. -/
theorem extract_longest_subpath (identifiers allPaths : List String)
    (identifier : String) (N : Nat) (hmem : identifier ∈ identifiers)
    (hnotkey : identifier ∉ allPaths) (h2 : 2 ≤ N)
    (hN : N ≤ (toPath identifier).length)
    (hin : convertPathToString ((toPath identifier).take N) ∈ allPaths)
    (hmax : ∀ m, N < m → m ≤ (toPath identifier).length →
      convertPathToString ((toPath identifier).take m) ∉ allPaths) :
    classifyIdentifier allPaths identifier =
      some (convertPathToString ((toPath identifier).take N)) ∧
    convertPathToString ((toPath identifier).take N) ∈
      (extractInfoFromIdentifiers identifiers allPaths).references ∧
    identifier ∉
      (extractInfoFromIdentifiers identifiers
        allPaths).unreferencedIdentifiers := by
  have hc : classifyIdentifier allPaths identifier =
      some (convertPathToString ((toPath identifier).take N)) := by
    unfold classifyIdentifier
    rw [if_neg hnotkey]
    exact searchSubpaths_eq_longest allPaths _ _ N le_rfl h2 hN hin hmax
  refine ⟨hc, ?_, ?_⟩
  · rw [mem_references_extract]
    exact ⟨identifier, hmem, hc⟩
  · rw [unreferenced_extract, List.mem_filter]
    rintro ⟨_, hnone⟩
    rw [hc] at hnone
    simp at hnone

/-- Witness for C3: `Api1.data.x` with `allPaths = [Api1.data]`: the longest
matching subpath with at least two segments is `Api1.data`. -/
theorem extract_longest_subpath_witness :
    classifyIdentifier ["Api1.data"] "Api1.data.x" =
      some (convertPathToString ((toPath "Api1.data.x").take 2)) ∧
    convertPathToString ((toPath "Api1.data.x").take 2) ∈
      (extractInfoFromIdentifiers ["Api1.data.x"] ["Api1.data"]).references ∧
    "Api1.data.x" ∉
      (extractInfoFromIdentifiers ["Api1.data.x"]
        ["Api1.data"]).unreferencedIdentifiers :=
  extract_longest_subpath ["Api1.data.x"] ["Api1.data"] "Api1.data.x" 2
    (by decide) (by decide) (by decide) (by decide) (by decide)
    (by
      intro m hm1 hm2
      have hlen : (toPath "Api1.data.x").length = 3 := by decide
      rw [hlen] at hm2
      have hm3 : m = 3 := by omega
      subst hm3
      decide)

/-- C4: for every identifier that is itself a key of `allPaths`,
`extractInfoFromIdentifiers` adds the identifier unchanged (verbatim,
without normalization of bracket syntax) to references and never adds it to
`unreferencedIdentifiers`. -/
theorem extract_direct_key (identifiers allPaths : List String)
    (identifier : String) (hmem : identifier ∈ identifiers)
    (hkey : identifier ∈ allPaths) :
    classifyIdentifier allPaths identifier = some identifier ∧
    identifier ∈ (extractInfoFromIdentifiers identifiers allPaths).references ∧
    identifier ∉
      (extractInfoFromIdentifiers identifiers
        allPaths).unreferencedIdentifiers := by
  have hc : classifyIdentifier allPaths identifier = some identifier := by
    unfold classifyIdentifier
    rw [if_pos hkey]
  refine ⟨hc, ?_, ?_⟩
  · rw [mem_references_extract]
    exact ⟨identifier, hmem, hc⟩
  · rw [unreferenced_extract, List.mem_filter]
    rintro ⟨_, hnone⟩
    rw [hc] at hnone
    simp at hnone

/-- Witness for C4: a bracket-syntax key is added verbatim, not in the
normalized dotted form `toPath`/`convertPathToString` would produce. -/
theorem extract_direct_key_witness :
    classifyIdentifier ["Api1[\"a b\"]"] "Api1[\"a b\"]" =
      some "Api1[\"a b\"]" ∧
    "Api1[\"a b\"]" ∈
      (extractInfoFromIdentifiers ["Api1[\"a b\"]"]
        ["Api1[\"a b\"]"]).references ∧
    "Api1[\"a b\"]" ∉
      (extractInfoFromIdentifiers ["Api1[\"a b\"]"]
        ["Api1[\"a b\"]"]).unreferencedIdentifiers :=
  extract_direct_key ["Api1[\"a b\"]"] ["Api1[\"a b\"]"] "Api1[\"a b\"]"
    (by decide) (by decide)

/-- C5: a multi-segment identifier that is not itself a key of `allPaths` and
none of whose subpaths of at least two segments is a key of `allPaths` is
reported as unreferenced, even when its single top-level segment (the bare
entity name) is a key of `allPaths`: a binding never acquires a dependency on
an entire top-level entity it did not name exactly. -/
theorem extract_no_toplevel_dependency (identifiers allPaths : List String)
    (identifier : String) (hmem : identifier ∈ identifiers)
    (hnotkey : identifier ∉ allPaths)
    (hmulti : 2 ≤ (toPath identifier).length)
    (hnone : ∀ m, 2 ≤ m → m ≤ (toPath identifier).length →
      convertPathToString ((toPath identifier).take m) ∉ allPaths)
    (htop : convertPathToString ((toPath identifier).take 1) ∈ allPaths) :
    classifyIdentifier allPaths identifier = none ∧
    identifier ∈
      (extractInfoFromIdentifiers identifiers
        allPaths).unreferencedIdentifiers := by
  have hc : classifyIdentifier allPaths identifier = none := by
    unfold classifyIdentifier
    rw [if_neg hnotkey]
    exact searchSubpaths_eq_none allPaths _ _ le_rfl hnone
  refine ⟨hc, ?_⟩
  rw [unreferenced_extract, List.mem_filter]
  exact ⟨hmem, by simp [hc]⟩

/-- Witness for C5: `Input1.text` with `allPaths = [Input1]` — the example of
the source comment: the bare entity `Input1` is a key, yet the identifier is
reported unreferenced. -/
theorem extract_no_toplevel_dependency_witness :
    classifyIdentifier ["Input1"] "Input1.text" = none ∧
    "Input1.text" ∈
      (extractInfoFromIdentifiers ["Input1.text"]
        ["Input1"]).unreferencedIdentifiers :=
  extract_no_toplevel_dependency ["Input1.text"] ["Input1"] "Input1.text"
    (by decide) (by decide) (by decide)
    (by
      intro m hm1 hm2
      have hlen : (toPath "Input1.text").length = 2 := by decide
      rw [hlen] at hm2
      have hm3 : m = 2 := by omega
      subst hm3
      decide)
    (by decide)

/-- C8: for every script string and every allPaths map,
`extractInfoFromBinding` returns exactly `extractInfoFromIdentifiers` applied
to the identifiers produced by `extractIdentifiersFromCode` on the script
with the current evaluation version: binding-level extraction is the
composition of code-level identifier extraction with identifier
classification. -/
theorem binding_extraction_is_composition (script : String)
    (allPaths : List String) :
    extractInfoFromBinding script allPaths =
      extractInfoFromIdentifiers
        (extractIdentifiersFromCode script evaluationVersion) allPaths := rfl

/-- C6: when an entity changes, the evaluator walks the topological order
and incrementally re-evaluates only the affected nodes: every path that does
not depend, directly or transitively, on the changed entity retains its
previous evaluated value unchanged. -/
theorem reevaluate_unaffected_unchanged (M : EvaluatorModel) (changed n : Nat)
    (old : Nat → Int) (h : ¬ DependsOn M.deps changed n) :
    reevaluate M changed old n = old n := by
  unfold reevaluate
  apply reevalGo_frame M changed n h
  intro d hd
  rw [List.mem_singleton] at hd
  subst hd
  exact DependsOn.base

/-- Witness for C6: node 2 reads nothing, so after node 0 changes (making
node 1 recompute) node 2 keeps its previous value. -/
theorem reevaluate_unaffected_unchanged_witness :
    reevaluate ⟨[0, 1, 2], fun m => if m = 1 then [0] else [], fun _ _ => 99⟩
      0 (fun _ => 7) 2 = 7 :=
  reevaluate_unaffected_unchanged
    ⟨[0, 1, 2], fun m => if m = 1 then [0] else [], fun _ _ => 99⟩
    0 2 (fun _ => 7)
    (by
      intro h
      cases h with
      | step hd hdep => simp at hd)

/-- C9: for `max` distinct from `min`, `getPosition` returns
`((value - min) / (max - min)) * 100` clamped into the closed interval
`[0, 100]`; in particular the returned position is always between 0 and 100
inclusive. -/
theorem getPosition_clamped (value minV maxV : ℚ) (h : maxV ≠ minV) :
    getPosition value minV maxV =
      min (max ((value - minV) / (maxV - minV) * 100) 0) 100 ∧
    0 ≤ getPosition value minV maxV ∧ getPosition value minV maxV ≤ 100 := by
  have hpos : getPosition value minV maxV =
      min (max ((value - minV) / (maxV - minV) * 100) 0) 100 := rfl
  refine ⟨hpos, ?_, ?_⟩
  · rw [hpos]
    exact le_min (le_max_right _ _) (by norm_num)
  · rw [hpos]
    exact min_le_right _ _

/-- Witness for C9 at `value = 5`, `min = 0`, `max = 10`. -/
theorem getPosition_clamped_witness :
    getPosition 5 0 10 = min (max ((5 - 0) / (10 - 0) * 100) 0) 100 ∧
    0 ≤ getPosition 5 0 10 ∧ getPosition 5 0 10 ≤ 100 :=
  getPosition_clamped 5 0 10 (by norm_num)

/-- C10: with `precision` undefined and `step` nonzero, `getChangeValue`
returns `min + k * step` for some integer `k`, with `k = 0` whenever the
scaled displacement `dx = left * (max - min)` is 0; and when
`containerWidth` is supplied and nonzero, `value` is clamped by
`Math.min(Math.max(value, 0), containerWidth)` and divided by
`containerWidth`, so `left` lies in `[0, 1]`. -/
theorem getChangeValue_step_multiple (value minV maxV step : ℚ)
    (containerWidth : Option ℚ) (hstep : step ≠ 0) :
    (∃ k : ℤ,
      getChangeValue value minV maxV step none containerWidth =
        minV + k * step ∧
      (sliderLeft value containerWidth * (maxV - minV) = 0 → k = 0)) ∧
    ∀ c : ℚ, containerWidth = some c → c ≠ 0 →
      sliderLeft value containerWidth = min (max value 0) c / c ∧
      0 ≤ sliderLeft value containerWidth ∧
      sliderLeft value containerWidth ≤ 1 := by
  constructor
  · by_cases hdx : sliderLeft value containerWidth * (maxV - minV) = 0
    · refine ⟨0, ?_, fun _ => rfl⟩
      show (if sliderLeft value containerWidth * (maxV - minV) ≠ 0 then
          jsRound (sliderLeft value containerWidth * (maxV - minV) / step) *
            step
        else 0) + minV = minV + (0 : ℤ) * step
      rw [if_neg (not_not_intro hdx)]
      push_cast
      ring
    · refine ⟨⌊sliderLeft value containerWidth * (maxV - minV) / step + 1 / 2⌋,
        ?_, fun hz => absurd hz hdx⟩
      show (if sliderLeft value containerWidth * (maxV - minV) ≠ 0 then
          jsRound (sliderLeft value containerWidth * (maxV - minV) / step) *
            step
        else 0) + minV =
        minV +
          (⌊sliderLeft value containerWidth * (maxV - minV) / step + 1 / 2⌋ :
            ℤ) * step
      rw [if_pos hdx]
      unfold jsRound
      ring
  · rintro c rfl hcne
    have hleft : sliderLeft value (some c) = min (max value 0) c / c := by
      simp [sliderLeft, hcne]
    refine ⟨hleft, ?_, ?_⟩ <;> rw [hleft]
    · rcases lt_or_gt_of_ne hcne with hneg | hpos
      · rw [min_eq_right (le_trans hneg.le (le_max_right value 0)),
          div_self hcne]
        norm_num
      · exact div_nonneg (le_min (le_max_right value 0) hpos.le) hpos.le
    · rcases lt_or_gt_of_ne hcne with hneg | hpos
      · rw [min_eq_right (le_trans hneg.le (le_max_right value 0)),
          div_self hcne]
      · rw [div_le_one hpos]
        exact min_le_right _ _

/-- Witness for C10: `value = 150` dragged over a 200-wide container with
`min = 0`, `max = 100`, `step = 10`. -/
theorem getChangeValue_step_multiple_witness :
    (∃ k : ℤ,
      getChangeValue 150 0 100 10 none (some 200) = 0 + k * 10 ∧
      (sliderLeft 150 (some 200) * (100 - 0) = 0 → k = 0)) ∧
    (sliderLeft 150 (some 200) = min (max 150 0) 200 / 200 ∧
      0 ≤ sliderLeft 150 (some 200) ∧ sliderLeft 150 (some 200) ≤ 1) :=
  ⟨(getChangeValue_step_multiple 150 0 100 10 (some 200) (by norm_num)).1,
   (getChangeValue_step_multiple 150 0 100 10 (some 200) (by norm_num)).2 200
     rfl (by norm_num)⟩

end Appsmith
